import Mathlib

/-!
Verification of the CLV prediction pipeline (`src/app.py`).

The development embeds the data-processing core of the application: the
RFM aggregation (`prepare_lifetimes_data`), the monetary-model input
filter (`train_clv_models`, the `ggf_ready_df` query), the CLV scoring
block, and the quantile-based segment recommendation, together with the
module's name environment (which determines whether
`summary_data_from_transaction_data` resolves at runtime).

Timestamps are modelled as integers (time units), monetary amounts as
rationals.
-/

/-- A raw purchase event: `customer_id`, `date`, `monetary_value`
(the CSV column `price` renamed on load). -/
structure TransactionRecord where
  customer_id : Nat
  date : Int
  monetary_value : ℚ
deriving DecidableEq, Repr

/-- One row of the RFM summary table produced by the aggregation:
`frequency`, `recency`, `T`, `monetary_value`, indexed by `customer_id`. -/
structure RfmSummary where
  customer_id : Nat
  frequency : Nat
  recency : Int
  T : Int
  monetary_value : ℚ
deriving DecidableEq, Repr

/-- Chronological order on transactions (by `date`). -/
def dateLE (a b : TransactionRecord) : Prop := a.date ≤ b.date

instance : DecidableRel dateLE := fun a b => Int.decLe a.date b.date

instance : IsTotal TransactionRecord dateLE := ⟨fun a b => Int.le_total a.date b.date⟩

instance : IsTrans TransactionRecord dateLE := ⟨fun _ _ _ h h2 => Int.le_trans h h2⟩

/-- Stable sort of a customer's transactions by timestamp ascending
(ties broken by original input order: insertion sort is stable). -/
def sortByDate (g : List TransactionRecord) : List TransactionRecord :=
  List.insertionSort dateLE g

/-- The distinct customer identifiers appearing in the store. -/
def customersOf (df : List TransactionRecord) : List Nat :=
  (df.map (·.customer_id)).dedup

/-- The group of transactions belonging to one customer. -/
def txnsOf (df : List TransactionRecord) (c : Nat) : List TransactionRecord :=
  df.filter (fun r => r.customer_id == c)

/-- Maximum `date` in a list of transactions (`df['date'].max()`); `0` on
the empty list, which the pipeline never queries. -/
def maxDateOf (g : List TransactionRecord) : Int :=
  match g with
  | [] => 0
  | r :: rs => rs.foldl (fun m x => max m x.date) r.date

/-- Minimum `date` in a list of transactions; `0` on the empty list. -/
def minDateOf (g : List TransactionRecord) : Int :=
  match g with
  | [] => 0
  | r :: rs => rs.foldl (fun m x => min m x.date) r.date

/-- Modelled from the spec: the per-customer reduction performed by the
lifetimes library's `summary_data_from_transaction_data`, which is not part
of this repository (and is never imported by `app.py`, see below). Spec
§4.1: sort the group chronologically; `frequency` = count − 1; `recency` =
last − first timestamp; `T` = observation-period end − first timestamp;
`monetary_value` = mean amount over the records excluding the first, `0`
when there is no repeat transaction. -/
def summaryOfGroup (obsEnd : Int) (c : Nat) (g : List TransactionRecord) : RfmSummary :=
  match sortByDate g with
  | [] => ⟨c, 0, 0, 0, 0⟩
  | first :: rest =>
    ⟨c, rest.length,
     (rest.getLastD first).date - first.date,
     obsEnd - first.date,
     if rest.length = 0 then 0 else (rest.map (·.monetary_value)).sum / rest.length⟩

/-- Modelled from the spec: the lifetimes library's RFM aggregation routine
called by `prepare_lifetimes_data` — one `RfmSummary` per distinct
`customer_id`, all computed against the supplied observation-period end. -/
def summary_data_from_transaction_data (df : List TransactionRecord)
    (observation_period_end : Int) : List RfmSummary :=
  (customersOf df).map (fun c => summaryOfGroup observation_period_end c (txnsOf df c))

/-- `prepare_lifetimes_data` (`app.py` lines 23–36): computes
`observation_period_end = df['date'].max()` over the whole store and runs
the aggregation against it. -/
def prepare_lifetimes_data (df : List TransactionRecord) : List RfmSummary :=
  summary_data_from_transaction_data df (maxDateOf df)

/-- The monetary-model fitting input (`app.py` line 43):
`summary_df.query("frequency > 0 and monetary_value > 0")`. -/
def ggf_ready_df (summary_df : List RfmSummary) : List RfmSummary :=
  summary_df.filter (fun s => decide (0 < s.frequency) && decide (0 < s.monetary_value))

/-- An RFM row together with its forecast
(`rfm_df['predicted_clv_12_months']`). -/
structure ScoredCustomer where
  summary : RfmSummary
  predicted_value : ℚ
deriving DecidableEq, Repr

/-- The CLV scoring block (`app.py` lines 69–78): the library scorer — a
total per-row function built from the two fitted models, the horizon and
the discount rate — is applied to every row of `rfm_df`, and the result is
assigned as a new column; there is no per-row filtering or error handling. -/
def assign_predicted_clv (score : RfmSummary → ℚ) (rfm_df : List RfmSummary) :
    List ScoredCustomer :=
  rfm_df.map (fun s => ⟨s, score s⟩)

/-- Modelled from the spec: the combined CLV scoring formula of
`customer_lifetime_value` (the lifetimes library, not part of this
repository). Spec §4.3: sum over each future period of expected
transactions in that period times expected per-transaction value,
discounted by `(1 + discount_rate) ^ period`. -/
def customer_lifetime_value (expected_transactions : Nat → ℚ) (expected_value : ℚ)
    (horizon : Nat) (discount_rate : ℚ) : ℚ :=
  ∑ p ∈ Finset.range horizon,
    expected_transactions (p + 1) * expected_value / (1 + discount_rate) ^ (p + 1)

/-- Segment labels of the strategic recommendation. -/
inductive Segment where
  | HIGH
  | MEDIUM
  | LOW
deriving DecidableEq, Repr

/-- Linear interpolation of a sorted value list at fractional position
`h`: the value between the order statistics at `floor h` and the next
index (clamped to the last index), weighted by the fractional part. -/
def qinterp (s : List ℚ) (h : ℚ) : ℚ :=
  s.getD (Int.floor h).toNat 0 +
    (h - ((Int.floor h).toNat : ℚ)) *
      (s.getD (min ((Int.floor h).toNat + 1) (s.length - 1)) 0 -
        s.getD (Int.floor h).toNat 0)

/-- `Series.quantile` with the default linear interpolation, as used on
`rfm_df['predicted_clv_12_months']`: sort the values and interpolate at
position `p * (n - 1)`. -/
def quantile (xs : List ℚ) (p : ℚ) : ℚ :=
  if (List.insertionSort (· ≤ ·) xs).length = 0 then 0
  else
    qinterp (List.insertionSort (· ≤ ·) xs)
      (p * ((List.insertionSort (· ≤ ·) xs).length - 1))

/-- The segment recommendation (`app.py` lines 110–117):
`clv_threshold_high = quantile(0.8)`, `clv_threshold_low = quantile(0.4)`;
HIGH when strictly above the high threshold, MEDIUM when strictly above
the low threshold, LOW otherwise. -/
def segmentOf (pop : List ℚ) (customer_clv : ℚ) : Segment :=
  let clv_threshold_high := quantile pop (8/10)
  let clv_threshold_low := quantile pop (4/10)
  if clv_threshold_high < customer_clv then .HIGH
  else if clv_threshold_low < customer_clv then .MEDIUM
  else .LOW

/-- The main pipeline (`app.py` lines 62–117) with the external model
fitting abstracted as a function `fit` from the two training inputs (the
full summary table for the BG/NBD fit, the filtered table for the
Gamma-Gamma fit) to a per-row scorer: aggregate, fit, score every row,
and segment every customer against the population of forecasts. -/
def run_pipeline (fit : List RfmSummary → List RfmSummary → RfmSummary → ℚ)
    (df : List TransactionRecord) : List RfmSummary × List (Nat × Segment) :=
  let rfm_df := prepare_lifetimes_data df
  let score := fit rfm_df (ggf_ready_df rfm_df)
  let scored := assign_predicted_clv score rfm_df
  let pop := scored.map (·.predicted_value)
  (rfm_df, scored.map (fun e => (e.summary.customer_id, segmentOf pop e.predicted_value)))

/-- Every name bound at module level in `app.py`: the imports (lines 1–5),
the function definitions, and the module-level assignments of the script
body. -/
def app_module_names : List String :=
  ["pd", "st", "BetaGeoFitter", "GammaGammaFitter", "plot_period_transactions", "go",
   "load_local_transaction_data", "prepare_lifetimes_data", "train_clv_models",
   "transaction_df", "rfm_df", "bgf_model", "ggf_model", "clv_forecast", "fig",
   "customer_list", "selected_customer", "customer_id_int", "customer_data",
   "customer_clv", "col1", "col2", "clv_threshold_high", "clv_threshold_low", "fig_val"]

/-- A Python runtime error relevant to the pipeline. -/
inductive PyError where
  | nameError (name : String)
deriving DecidableEq, Repr

/-- Execution of `prepare_lifetimes_data` as Python resolves it: the body
looks up `summary_data_from_transaction_data` among the names bound in the
module (plus nothing else: it is not a builtin and not a local); if the
lookup fails the call raises `NameError` instead of returning a summary. -/
def prepare_lifetimes_data_run (df : List TransactionRecord) :
    Except PyError (List RfmSummary) :=
  if "summary_data_from_transaction_data" ∈ app_module_names then
    .ok (prepare_lifetimes_data df)
  else
    .error (.nameError "summary_data_from_transaction_data")

/-! ### Helper lemmas on sorting, minima and maxima -/

theorem sortByDate_perm (g : List TransactionRecord) : (sortByDate g).Perm g :=
  List.perm_insertionSort dateLE g

theorem sortByDate_sorted (g : List TransactionRecord) : List.Sorted dateLE (sortByDate g) :=
  List.sorted_insertionSort dateLE g

theorem mem_sortByDate {g : List TransactionRecord} {r : TransactionRecord} :
    r ∈ sortByDate g ↔ r ∈ g :=
  (sortByDate_perm g).mem_iff

theorem length_sortByDate (g : List TransactionRecord) : (sortByDate g).length = g.length :=
  (sortByDate_perm g).length_eq

theorem getLastD_cons_eq (b a : TransactionRecord) (l : List TransactionRecord) :
    (b :: l).getLastD a = l.getLastD b := by
  cases l <;> rfl

theorem getLastD_mem_cons (l : List TransactionRecord) (a : TransactionRecord) :
    l.getLastD a ∈ a :: l := by
  induction l generalizing a with
  | nil => simp [List.getLastD]
  | cons x xs ih =>
    rw [getLastD_cons_eq]
    exact List.mem_cons_of_mem a (ih x)

theorem sorted_head_le {a : TransactionRecord} {l : List TransactionRecord}
    (h : List.Sorted dateLE (a :: l)) {b : TransactionRecord} (hb : b ∈ a :: l) :
    a.date ≤ b.date := by
  rcases List.mem_cons.mp hb with rfl | hb
  · exact le_refl _
  · exact (List.sorted_cons.mp h).1 b hb

theorem sorted_le_getLastD : ∀ {l : List TransactionRecord}, List.Sorted dateLE l →
    ∀ {b : TransactionRecord}, b ∈ l → ∀ a : TransactionRecord,
      b.date ≤ (l.getLastD a).date := by
  intro l
  induction l with
  | nil => intro _ b hb; cases hb
  | cons x xs ih =>
    intro h b hb a
    rw [getLastD_cons_eq]
    have hs : List.Sorted dateLE xs := (List.sorted_cons.mp h).2
    rcases List.mem_cons.mp hb with rfl | hb2
    · rcases List.mem_cons.mp (getLastD_mem_cons xs b) with he | hm
      · rw [he]
      · exact (List.sorted_cons.mp h).1 _ hm
    · exact ih hs hb2 x

theorem le_foldl_max (rs : List TransactionRecord) (a : Int) :
    a ≤ rs.foldl (fun m x => max m x.date) a := by
  induction rs generalizing a with
  | nil => exact le_refl a
  | cons r rs ih => exact le_trans (le_max_left a r.date) (ih (max a r.date))

theorem mem_le_foldl_max : ∀ (rs : List TransactionRecord) {r : TransactionRecord},
    r ∈ rs → ∀ a : Int, r.date ≤ rs.foldl (fun m x => max m x.date) a := by
  intro rs
  induction rs with
  | nil => intro r hr a; cases hr
  | cons x xs ih =>
    intro r hr a
    rcases List.mem_cons.mp hr with rfl | hr2
    · exact le_trans (le_max_right a r.date) (le_foldl_max xs (max a r.date))
    · exact ih hr2 (max a x.date)

theorem foldl_max_choice (rs : List TransactionRecord) (a : Int) :
    rs.foldl (fun m x => max m x.date) a = a ∨
      ∃ r ∈ rs, rs.foldl (fun m x => max m x.date) a = r.date := by
  induction rs generalizing a with
  | nil => exact Or.inl rfl
  | cons x xs ih =>
    rcases ih (max a x.date) with h | ⟨r, hr, h⟩
    · rcases max_choice a x.date with he | he
      · exact Or.inl (by rw [List.foldl_cons, h, he])
      · exact Or.inr ⟨x, List.mem_cons_self x xs, by rw [List.foldl_cons, h, he]⟩
    · exact Or.inr ⟨r, List.mem_cons_of_mem x hr, by rw [List.foldl_cons, h]⟩

theorem le_maxDateOf {g : List TransactionRecord} {r : TransactionRecord} (hr : r ∈ g) :
    r.date ≤ maxDateOf g := by
  cases g with
  | nil => cases hr
  | cons x xs =>
    rcases List.mem_cons.mp hr with rfl | hr2
    · exact le_foldl_max xs r.date
    · exact mem_le_foldl_max xs hr2 x.date

theorem maxDateOf_attained {g : List TransactionRecord} (hg : g ≠ []) :
    ∃ r ∈ g, maxDateOf g = r.date := by
  cases g with
  | nil => exact absurd rfl hg
  | cons x xs =>
    rcases foldl_max_choice xs x.date with h | ⟨r, hr, h⟩
    · exact ⟨x, List.mem_cons_self x xs, h⟩
    · exact ⟨r, List.mem_cons_of_mem x hr, h⟩

theorem foldl_min_le (rs : List TransactionRecord) (a : Int) :
    rs.foldl (fun m x => min m x.date) a ≤ a := by
  induction rs generalizing a with
  | nil => exact le_refl a
  | cons r rs ih => exact le_trans (ih (min a r.date)) (min_le_left a r.date)

theorem foldl_min_le_mem : ∀ (rs : List TransactionRecord) {r : TransactionRecord},
    r ∈ rs → ∀ a : Int, rs.foldl (fun m x => min m x.date) a ≤ r.date := by
  intro rs
  induction rs with
  | nil => intro r hr a; cases hr
  | cons x xs ih =>
    intro r hr a
    rcases List.mem_cons.mp hr with rfl | hr2
    · exact le_trans (foldl_min_le xs (min a r.date)) (min_le_right a r.date)
    · exact ih hr2 (min a x.date)

theorem foldl_min_choice (rs : List TransactionRecord) (a : Int) :
    rs.foldl (fun m x => min m x.date) a = a ∨
      ∃ r ∈ rs, rs.foldl (fun m x => min m x.date) a = r.date := by
  induction rs generalizing a with
  | nil => exact Or.inl rfl
  | cons x xs ih =>
    rcases ih (min a x.date) with h | ⟨r, hr, h⟩
    · rcases min_choice a x.date with he | he
      · exact Or.inl (by rw [List.foldl_cons, h, he])
      · exact Or.inr ⟨x, List.mem_cons_self x xs, by rw [List.foldl_cons, h, he]⟩
    · exact Or.inr ⟨r, List.mem_cons_of_mem x hr, by rw [List.foldl_cons, h]⟩

theorem minDateOf_le {g : List TransactionRecord} {r : TransactionRecord} (hr : r ∈ g) :
    minDateOf g ≤ r.date := by
  cases g with
  | nil => cases hr
  | cons x xs =>
    rcases List.mem_cons.mp hr with rfl | hr2
    · exact foldl_min_le xs r.date
    · exact foldl_min_le_mem xs hr2 x.date

theorem minDateOf_attained {g : List TransactionRecord} (hg : g ≠ []) :
    ∃ r ∈ g, minDateOf g = r.date := by
  cases g with
  | nil => exact absurd rfl hg
  | cons x xs =>
    rcases foldl_min_choice xs x.date with h | ⟨r, hr, h⟩
    · exact ⟨x, List.mem_cons_self x xs, h⟩
    · exact ⟨r, List.mem_cons_of_mem x hr, h⟩

/-! ### The sorted group's endpoints are the group's extremal timestamps -/

theorem mem_txnsOf {df : List TransactionRecord} {c : Nat} {r : TransactionRecord} :
    r ∈ txnsOf df c ↔ r ∈ df ∧ r.customer_id = c := by
  simp [txnsOf, List.mem_filter]

theorem txnsOf_ne_nil {df : List TransactionRecord} {c : Nat} (hc : c ∈ customersOf df) :
    txnsOf df c ≠ [] := by
  have hc2 : c ∈ df.map (·.customer_id) := List.mem_dedup.mp hc
  rcases List.mem_map.mp hc2 with ⟨r, hr, he⟩
  exact List.ne_nil_of_mem (mem_txnsOf.mpr ⟨hr, he⟩)

theorem sortByDate_head_min {g : List TransactionRecord} {first : TransactionRecord}
    {rest : List TransactionRecord} (h : sortByDate g = first :: rest) :
    first.date = minDateOf g := by
  have hg : g ≠ [] := by
    intro he
    rw [he] at h
    exact List.cons_ne_nil first rest h.symm
  have hmem : first ∈ g := mem_sortByDate.mp (h ▸ List.mem_cons_self first rest)
  have h1 : minDateOf g ≤ first.date := minDateOf_le hmem
  rcases minDateOf_attained hg with ⟨r, hr, he⟩
  have hr2 : r ∈ first :: rest := h ▸ mem_sortByDate.mpr hr
  have h2 : first.date ≤ r.date := sorted_head_le (h ▸ sortByDate_sorted g) hr2
  exact le_antisymm (by rw [he]; exact h2) h1

theorem sortByDate_getLastD_max {g : List TransactionRecord} {first : TransactionRecord}
    {rest : List TransactionRecord} (h : sortByDate g = first :: rest) :
    (rest.getLastD first).date = maxDateOf g := by
  have hg : g ≠ [] := by
    intro he
    rw [he] at h
    exact List.cons_ne_nil first rest h.symm
  have hmem : rest.getLastD first ∈ g := by
    apply mem_sortByDate.mp
    rw [h]
    exact getLastD_mem_cons rest first
  have h1 : (rest.getLastD first).date ≤ maxDateOf g := le_maxDateOf hmem
  rcases maxDateOf_attained hg with ⟨r, hr, he⟩
  have hr2 : r ∈ first :: rest := h ▸ mem_sortByDate.mpr hr
  have h2 : r.date ≤ ((first :: rest).getLastD first).date :=
    sorted_le_getLastD (h ▸ sortByDate_sorted g) hr2 first
  rw [getLastD_cons_eq] at h2
  exact le_antisymm h1 (by rw [he]; exact h2)

/-- The chronologically first transaction of a group (the head of the
stable sort by date). -/
def firstTxn (g : List TransactionRecord) : TransactionRecord :=
  (sortByDate g).headD ⟨0, 0, 0⟩

theorem summaryOfGroup_customer_id (obsEnd : Int) (c : Nat) (g : List TransactionRecord) :
    (summaryOfGroup obsEnd c g).customer_id = c := by
  unfold summaryOfGroup
  cases sortByDate g <;> rfl

/-- Characterization of one aggregated row on a non-empty group: the
frequency counts all but one transaction, recency and T are measured from
the earliest timestamp, the latest timestamp bounds recency, and the
monetary value averages the amounts with the chronologically first one
removed. -/
theorem summaryOfGroup_spec (obsEnd : Int) (c : Nat) (g : List TransactionRecord)
    (hg : g ≠ []) :
    (summaryOfGroup obsEnd c g).frequency + 1 = g.length ∧
    (summaryOfGroup obsEnd c g).recency = maxDateOf g - minDateOf g ∧
    (summaryOfGroup obsEnd c g).T = obsEnd - minDateOf g ∧
    ((summaryOfGroup obsEnd c g).frequency = 0 →
      (summaryOfGroup obsEnd c g).monetary_value = 0) ∧
    (0 < (summaryOfGroup obsEnd c g).frequency →
      (summaryOfGroup obsEnd c g).monetary_value * (summaryOfGroup obsEnd c g).frequency =
        (g.map (·.monetary_value)).sum - (firstTxn g).monetary_value) := by
  have hlen := length_sortByDate g
  cases hs : sortByDate g with
  | nil =>
    rw [hs] at hlen
    exact absurd (List.length_eq_zero.mp hlen.symm) hg
  | cons first rest =>
    have hfirst : firstTxn g = first := by rw [firstTxn, hs]; rfl
    have hmin : first.date = minDateOf g := sortByDate_head_min hs
    have hmax : (rest.getLastD first).date = maxDateOf g := sortByDate_getLastD_max hs
    rw [hs] at hlen
    have hsum : (g.map (·.monetary_value)).sum =
        first.monetary_value + (rest.map (·.monetary_value)).sum := by
      have hp : ((first :: rest).map (·.monetary_value)).Perm (g.map (·.monetary_value)) := by
        rw [← hs]
        exact (sortByDate_perm g).map (·.monetary_value)
      rw [← hp.sum_eq, List.map_cons, List.sum_cons]
    simp only [summaryOfGroup, hs]
    refine ⟨by simpa using hlen, by rw [hmin, hmax], by rw [hmin], ?_, ?_⟩
    · intro hf
      simp only [hf, if_pos rfl]
      simp [List.length_eq_zero.mp hf]
    · intro hf
      have hne : rest.length ≠ 0 := Nat.pos_iff_ne_zero.mp hf
      rw [if_neg hne, hfirst, hsum]
      have hq : ((rest.length : ℚ)) ≠ 0 := Nat.cast_ne_zero.mpr hne
      rw [div_mul_cancel₀ _ hq]
      ring

/-! ### Quantile interpolation is monotone in the probability -/

theorem getD_eq_get_of_lt (l : List ℚ) {i : Nat} (h : i < l.length) :
    l.getD i 0 = l.get ⟨i, h⟩ := by
  rw [List.getD_eq_getElem?_getD, List.getElem?_eq_getElem h, Option.getD_some,
    List.get_eq_getElem]

theorem sorted_getD_mono {s : List ℚ} (hs : List.Sorted (· ≤ ·) s) {i j : Nat}
    (hij : i ≤ j) (hj : j < s.length) : s.getD i 0 ≤ s.getD j 0 := by
  have hi : i < s.length := lt_of_le_of_lt hij hj
  rw [getD_eq_get_of_lt s hi, getD_eq_get_of_lt s hj]
  exact hs.rel_get_of_le (Fin.mk_le_mk.mpr hij)

theorem qinterp_mono {s : List ℚ} (hs : List.Sorted (· ≤ ·) s) (hlen : s.length ≠ 0)
    {x y : ℚ} (hx0 : 0 ≤ x) (hxy : x ≤ y) (hub : y ≤ (s.length : ℚ) - 1) :
    qinterp s x ≤ qinterp s y := by
  have hy0 : 0 ≤ y := le_trans hx0 hxy
  have hflx : 0 ≤ Int.floor x := Int.floor_nonneg.mpr hx0
  have hfly : 0 ≤ Int.floor y := Int.floor_nonneg.mpr hy0
  have hcx : (((Int.floor x).toNat : ℚ)) = ((Int.floor x : ℤ) : ℚ) := by
    exact_mod_cast congrArg (fun z : ℤ => (z : ℚ)) (Int.toNat_of_nonneg hflx)
  have hcy : (((Int.floor y).toNat : ℚ)) = ((Int.floor y : ℤ) : ℚ) := by
    exact_mod_cast congrArg (fun z : ℤ => (z : ℚ)) (Int.toNat_of_nonneg hfly)
  have hxlo : (((Int.floor x).toNat : ℚ)) ≤ x := by rw [hcx]; exact Int.floor_le x
  have hxhi : x - (((Int.floor x).toNat : ℚ)) ≤ 1 := by
    rw [hcx]
    have := Int.lt_floor_add_one x
    linarith
  have hylo : (((Int.floor y).toNat : ℚ)) ≤ y := by rw [hcy]; exact Int.floor_le y
  have hij : (Int.floor x).toNat ≤ (Int.floor y).toNat :=
    Int.toNat_le_toNat (Int.floor_mono hxy)
  have hn1 : 1 ≤ s.length := Nat.pos_of_ne_zero hlen
  have hyn : (Int.floor y).toNat ≤ s.length - 1 := by
    have h1 : Int.floor y ≤ Int.floor ((s.length : ℚ) - 1) := Int.floor_mono hub
    have h2 : ((s.length : ℚ) - 1) = (((s.length : ℤ) - 1 : ℤ) : ℚ) := by push_cast; ring
    rw [h2, Int.floor_intCast] at h1
    have h3 : (Int.floor y).toNat ≤ ((s.length : ℤ) - 1).toNat := Int.toNat_le_toNat h1
    have h4 : ((s.length : ℤ) - 1).toNat = s.length - 1 := by omega
    omega
  have hxn : (Int.floor x).toNat ≤ s.length - 1 := le_trans hij hyn
  have hjlt : s.length - 1 < s.length := by omega
  have hminx : min ((Int.floor x).toNat + 1) (s.length - 1) < s.length :=
    lt_of_le_of_lt (min_le_right _ _) hjlt
  have hlominx : (Int.floor x).toNat ≤ min ((Int.floor x).toNat + 1) (s.length - 1) :=
    le_min (Nat.le_succ _) hxn
  have hABx : s.getD (Int.floor x).toNat 0 ≤
      s.getD (min ((Int.floor x).toNat + 1) (s.length - 1)) 0 :=
    sorted_getD_mono hs hlominx hminx
  have hminy : min ((Int.floor y).toNat + 1) (s.length - 1) < s.length :=
    lt_of_le_of_lt (min_le_right _ _) hjlt
  have hlominy : (Int.floor y).toNat ≤ min ((Int.floor y).toNat + 1) (s.length - 1) :=
    le_min (Nat.le_succ _) hyn
  have hABy : s.getD (Int.floor y).toNat 0 ≤
      s.getD (min ((Int.floor y).toNat + 1) (s.length - 1)) 0 :=
    sorted_getD_mono hs hlominy hminy
  rcases Nat.lt_or_ge (Int.floor x).toNat (Int.floor y).toNat with hlt | hge
  · -- the two positions fall in different segments of the sorted list
    have step1 : qinterp s x ≤ s.getD (min ((Int.floor x).toNat + 1) (s.length - 1)) 0 := by
      unfold qinterp
      nlinarith [hABx, hxhi, hxlo]
    have step2 : s.getD (min ((Int.floor x).toNat + 1) (s.length - 1)) 0 ≤
        s.getD (Int.floor y).toNat 0 := by
      apply sorted_getD_mono hs
      · exact le_trans (min_le_left _ _) hlt
      · exact lt_of_le_of_lt hyn hjlt
    have step3 : s.getD (Int.floor y).toNat 0 ≤ qinterp s y := by
      unfold qinterp
      nlinarith [hABy, hylo]
    exact le_trans (le_trans step1 step2) step3
  · -- same floor position: interpolate along the same segment
    have heq : (Int.floor x).toNat = (Int.floor y).toNat := le_antisymm hij hge
    unfold qinterp
    rw [heq]
    have hfle : y - (((Int.floor y).toNat : ℚ)) ≥ x - (((Int.floor y).toNat : ℚ)) := by
      linarith
    nlinarith [hABy, hfle]

theorem quantile_mono (xs : List ℚ) {p q : ℚ} (hp : 0 ≤ p) (hpq : p ≤ q) (hq1 : q ≤ 1) :
    quantile xs p ≤ quantile xs q := by
  unfold quantile
  by_cases hlen : (List.insertionSort (· ≤ ·) xs).length = 0
  · rw [if_pos hlen, if_pos hlen]
  · rw [if_neg hlen, if_neg hlen]
    have hs : List.Sorted (· ≤ ·) (List.insertionSort (· ≤ ·) xs) :=
      List.sorted_insertionSort _ xs
    have hn1 : (1:ℚ) ≤ ((List.insertionSort (· ≤ ·) xs).length : ℚ) := by
      exact_mod_cast Nat.pos_of_ne_zero hlen
    have hnn : (0:ℚ) ≤ ((List.insertionSort (· ≤ ·) xs).length : ℚ) - 1 := by linarith
    apply qinterp_mono hs hlen (mul_nonneg hp hnn) (mul_le_mul_of_nonneg_right hpq hnn)
    calc q * (((List.insertionSort (· ≤ ·) xs).length : ℚ) - 1)
        ≤ 1 * (((List.insertionSort (· ≤ ·) xs).length : ℚ) - 1) :=
          mul_le_mul_of_nonneg_right hq1 hnn
      _ = ((List.insertionSort (· ≤ ·) xs).length : ℚ) - 1 := one_mul _

/-! ### Concrete stores used to instantiate the theorems -/

/-- The spec's worked example: customer 1 buys on days 0, 10, 20 for 10,
20, 30; customer 2 buys once on day 15 for 5. -/
def exampleStore : List TransactionRecord :=
  [⟨1, 0, 10⟩, ⟨1, 10, 20⟩, ⟨1, 20, 30⟩, ⟨2, 15, 5⟩]

/-- A store whose one repeat purchase has amount 0: the aggregated row has
`frequency = 1` but `monetary_value = 0`. -/
def zeroRepeatStore : List TransactionRecord :=
  [⟨1, 0, 5⟩, ⟨1, 1, 0⟩]

theorem prepare_exampleStore_eq :
    prepare_lifetimes_data exampleStore = [⟨1, 2, 20, 20, 25⟩, ⟨2, 0, 0, 5, 0⟩] := by
  norm_num [prepare_lifetimes_data, summary_data_from_transaction_data, customersOf, txnsOf,
    summaryOfGroup, sortByDate, maxDateOf, List.insertionSort, List.orderedInsert, dateLE,
    exampleStore, List.dedup, List.pwFilter, List.filter]
  decide

theorem prepare_zeroRepeatStore_eq :
    prepare_lifetimes_data zeroRepeatStore = [⟨1, 1, 1, 1, 0⟩] := by
  norm_num [prepare_lifetimes_data, summary_data_from_transaction_data, customersOf, txnsOf,
    summaryOfGroup, sortByDate, maxDateOf, List.insertionSort, List.orderedInsert, dateLE,
    zeroRepeatStore, List.dedup, List.pwFilter, List.filter]

/-! ### Claims -/

/-- What C1 asserts of one aggregated row, stated against the customer's
raw transaction group: the frequency undercounts the transactions by one,
recency spans from the earliest to the latest of the customer's
timestamps, T spans from the earliest timestamp to the global
observation-period end, the monetary value is the mean of the amounts
excluding the chronologically first (equivalently, `monetary_value *
frequency` is the total spend minus the first purchase), and a
single-transaction customer gets frequency 0, recency 0 and monetary
value 0. -/
def rfm_row_spec (df : List TransactionRecord) (s : RfmSummary) : Prop :=
  s.frequency + 1 = (txnsOf df s.customer_id).length ∧
  s.recency = maxDateOf (txnsOf df s.customer_id) - minDateOf (txnsOf df s.customer_id) ∧
  s.T = maxDateOf df - minDateOf (txnsOf df s.customer_id) ∧
  ((txnsOf df s.customer_id).length = 1 →
    s.frequency = 0 ∧ s.recency = 0 ∧ s.monetary_value = 0) ∧
  (0 < s.frequency →
    s.monetary_value * s.frequency =
      ((txnsOf df s.customer_id).map (·.monetary_value)).sum -
        (firstTxn (txnsOf df s.customer_id)).monetary_value)

/-- C1: for every transaction store, every row the RFM aggregation
produces satisfies `rfm_row_spec`: frequency = count − 1, recency = last −
first timestamp, T = global observation-period end − first timestamp,
monetary value = mean amount excluding the first transaction, and the
single-transaction edge case yields frequency 0, recency 0, monetary
value 0. -/
theorem rfm_aggregation_matches_spec (df : List TransactionRecord) (s : RfmSummary)
    (hs : s ∈ prepare_lifetimes_data df) : rfm_row_spec df s := by
  rw [prepare_lifetimes_data, summary_data_from_transaction_data] at hs
  rcases List.mem_map.mp hs with ⟨c, hc, rfl⟩
  have hg : txnsOf df c ≠ [] := txnsOf_ne_nil hc
  have hcid := summaryOfGroup_customer_id (maxDateOf df) c (txnsOf df c)
  rcases summaryOfGroup_spec (maxDateOf df) c (txnsOf df c) hg with
    ⟨hfreq, hrec, hT, hmv0, hmv⟩
  unfold rfm_row_spec
  rw [hcid]
  refine ⟨hfreq, hrec, hT, ?_, hmv⟩
  intro h1
  have hf0 : (summaryOfGroup (maxDateOf df) c (txnsOf df c)).frequency = 0 := by omega
  refine ⟨hf0, ?_, hmv0 hf0⟩
  rcases List.length_eq_one.mp h1 with ⟨r, hr⟩
  rw [hrec, hr]
  simp [maxDateOf, minDateOf]

/-- Witness for C1 at the spec's worked example: customer 1's row. -/
theorem rfm_aggregation_matches_spec_witness :
    (⟨1, 2, 20, 20, 25⟩ : RfmSummary) ∈ prepare_lifetimes_data exampleStore ∧
    rfm_row_spec exampleStore ⟨1, 2, 20, 20, 25⟩ :=
  ⟨by rw [prepare_exampleStore_eq]; exact List.mem_cons_self _ _,
   rfm_aggregation_matches_spec exampleStore _
     (by rw [prepare_exampleStore_eq]; exact List.mem_cons_self _ _)⟩

/-- C2 as stated is false: on `zeroRepeatStore` the aggregation yields a
row with `frequency = 1 > 0` and `monetary_value = 0`, and the
`ggf_ready_df` query excludes that customer from the monetary fit even
though its frequency is positive. -/
theorem monetary_fit_drops_positive_frequency_customer :
    (⟨1, 1, 1, 1, 0⟩ : RfmSummary) ∈ prepare_lifetimes_data zeroRepeatStore ∧
    0 < (⟨1, 1, 1, 1, 0⟩ : RfmSummary).frequency ∧
    (⟨1, 1, 1, 1, 0⟩ : RfmSummary) ∉ ggf_ready_df (prepare_lifetimes_data zeroRepeatStore) := by
  rw [prepare_zeroRepeatStore_eq]
  refine ⟨List.mem_cons_self _ _, Nat.zero_lt_one, ?_⟩
  intro hmem
  have := (List.mem_filter.mp hmem).2
  simp at this

/-- C2, amended: the monetary-model fitting input is exactly the set of
customers with `frequency > 0` and `monetary_value > 0`; a customer with
positive frequency but non-positive monetary value is also excluded. -/
theorem monetary_fit_input_iff (summary_df : List RfmSummary) (s : RfmSummary) :
    s ∈ ggf_ready_df summary_df ↔
      s ∈ summary_df ∧ 0 < s.frequency ∧ 0 < s.monetary_value := by
  simp [ggf_ready_df, List.mem_filter, and_assoc]

/-- C3: the segment recommendation assigns every customer exactly one of
HIGH, MEDIUM, LOW; HIGH exactly when the forecast strictly exceeds the
80th percentile, LOW exactly when it is at most the 40th percentile,
MEDIUM exactly in between; a value equal to a threshold falls into the
lower segment. -/
theorem segmentation_partitions (pop : List ℚ) (v : ℚ) :
    (segmentOf pop v = .HIGH ∨ segmentOf pop v = .MEDIUM ∨ segmentOf pop v = .LOW) ∧
    (segmentOf pop v = .HIGH ↔ quantile pop (8/10) < v) ∧
    (segmentOf pop v = .MEDIUM ↔ quantile pop (4/10) < v ∧ v ≤ quantile pop (8/10)) ∧
    (segmentOf pop v = .LOW ↔ v ≤ quantile pop (4/10)) := by
  have hq : quantile pop (4/10) ≤ quantile pop (8/10) :=
    quantile_mono pop (by norm_num) (by norm_num) (by norm_num)
  unfold segmentOf
  dsimp only
  split_ifs with h1 h2
  · refine ⟨Or.inl rfl, ⟨fun _ => h1, fun _ => rfl⟩, ?_, ?_⟩
    · exact ⟨fun h => h.elim,
        fun h => absurd h1 (not_lt.mpr h.2)⟩
    · exact ⟨fun h => h.elim,
        fun h => absurd h1 (not_lt.mpr (le_trans h hq))⟩
  · refine ⟨Or.inr (Or.inl rfl), ?_, ⟨fun _ => ⟨h2, not_lt.mp h1⟩, fun _ => rfl⟩, ?_⟩
    · exact ⟨fun h => h.elim, fun h => absurd h h1⟩
    · exact ⟨fun h => h.elim, fun h => absurd h2 (not_lt.mpr h)⟩
  · refine ⟨Or.inr (Or.inr rfl), ?_, ?_, ⟨fun _ => not_lt.mp h2, fun _ => rfl⟩⟩
    · exact ⟨fun h => h.elim, fun h => absurd h h1⟩
    · exact ⟨fun h => h.elim, fun h => absurd h.1 h2⟩

/-- What C4 asserts of the whole summary table: one row per distinct
customer (the projection of the table onto `customer_id` is exactly the
duplicate-free customer list, and every record's customer appears), and
every row satisfies `frequency ≥ 0` and `T ≥ recency ≥ 0`. -/
def rfm_table_invariant (df : List TransactionRecord) : Prop :=
  (prepare_lifetimes_data df).map (·.customer_id) = customersOf df ∧
  (customersOf df).Nodup ∧
  (∀ r ∈ df, r.customer_id ∈ customersOf df) ∧
  ∀ s ∈ prepare_lifetimes_data df, 0 ≤ s.frequency ∧ 0 ≤ s.recency ∧ s.recency ≤ s.T

/-- C4: for every non-empty transaction store, the RFM aggregation yields
exactly one summary per distinct customer, and every summary satisfies
`T ≥ recency ≥ 0` and `frequency ≥ 0`. -/
theorem rfm_table_wellformed (df : List TransactionRecord) (_hdf : df ≠ []) :
    rfm_table_invariant df := by
  refine ⟨?_, List.nodup_dedup _, ?_, ?_⟩
  · rw [prepare_lifetimes_data, summary_data_from_transaction_data, List.map_map]
    have : (fun s : RfmSummary => s.customer_id) ∘
        (fun c => summaryOfGroup (maxDateOf df) c (txnsOf df c)) = fun c => c := by
      funext c
      exact summaryOfGroup_customer_id (maxDateOf df) c (txnsOf df c)
    rw [this]
    simp
  · intro r hr
    exact List.mem_dedup.mpr (List.mem_map.mpr ⟨r, hr, rfl⟩)
  · intro s hs
    rw [prepare_lifetimes_data, summary_data_from_transaction_data] at hs
    rcases List.mem_map.mp hs with ⟨c, hc, rfl⟩
    have hg : txnsOf df c ≠ [] := txnsOf_ne_nil hc
    rcases summaryOfGroup_spec (maxDateOf df) c (txnsOf df c) hg with
      ⟨_, hrec, hT, _, _⟩
    refine ⟨Nat.zero_le _, ?_, ?_⟩
    · rw [hrec]
      rcases minDateOf_attained hg with ⟨r, hr, he⟩
      have := le_maxDateOf hr
      omega
    · rw [hrec, hT]
      rcases maxDateOf_attained hg with ⟨r, hr, he⟩
      have h1 : r.date ≤ maxDateOf df := le_maxDateOf (mem_txnsOf.mp hr).1
      omega

/-- Witness for C4 at the spec's worked example. -/
theorem rfm_table_wellformed_witness :
    exampleStore ≠ [] ∧ rfm_table_invariant exampleStore :=
  ⟨by decide, rfm_table_wellformed exampleStore (by decide)⟩

/-- What C5 asserts: the observation-period end is the maximum timestamp
over the whole store (it bounds every record's timestamp and is attained
by one of them, whichever customer it belongs to), and every customer's
`T` is measured from this global end, not from the customer's own last
timestamp. -/
def observation_end_is_global (df : List TransactionRecord) : Prop :=
  (∀ r ∈ df, r.date ≤ maxDateOf df) ∧
  (∃ r ∈ df, maxDateOf df = r.date) ∧
  ∀ s ∈ prepare_lifetimes_data df,
    s.T = maxDateOf df - minDateOf (txnsOf df s.customer_id)

/-- C5: for every non-empty transaction store, the observation-period end
used for every customer's `T` is the maximum timestamp across the entire
store. -/
theorem observation_end_global (df : List TransactionRecord) (hdf : df ≠ []) :
    observation_end_is_global df := by
  refine ⟨fun r hr => le_maxDateOf hr, maxDateOf_attained hdf, ?_⟩
  intro s hs
  rw [prepare_lifetimes_data, summary_data_from_transaction_data] at hs
  rcases List.mem_map.mp hs with ⟨c, hc, rfl⟩
  have hg : txnsOf df c ≠ [] := txnsOf_ne_nil hc
  rw [summaryOfGroup_customer_id]
  exact (summaryOfGroup_spec (maxDateOf df) c (txnsOf df c) hg).2.2.1

/-- Witness for C5 at the spec's worked example. -/
theorem observation_end_global_witness :
    exampleStore ≠ [] ∧ observation_end_is_global exampleStore :=
  ⟨by decide, observation_end_global exampleStore (by decide)⟩

/-- C6: with the expected transaction counts and the expected
per-transaction value non-negative (the model contract of spec §4.2) and
everything else fixed, raising the discount rate from 0.01 to 0.10 does
not increase the predicted customer lifetime value. -/
theorem clv_antitone_in_discount_rate (expected_transactions : Nat → ℚ)
    (expected_value : ℚ) (horizon : Nat) (hv : 0 ≤ expected_value)
    (ht : ∀ p, 0 ≤ expected_transactions p) :
    customer_lifetime_value expected_transactions expected_value horizon (10/100) ≤
      customer_lifetime_value expected_transactions expected_value horizon (1/100) := by
  unfold customer_lifetime_value
  refine Finset.sum_le_sum (fun p _ => ?_)
  have hN : 0 ≤ expected_transactions (p + 1) * expected_value :=
    mul_nonneg (ht (p + 1)) hv
  have hb : (0:ℚ) < (1 + 1/100) ^ (p + 1) := by positivity
  have hpow : ((1:ℚ) + 1/100) ^ (p + 1) ≤ ((1:ℚ) + 10/100) ^ (p + 1) :=
    pow_le_pow_left₀ (by norm_num) (by norm_num) (p + 1)
  exact div_le_div_of_nonneg_left hN hb hpow

/-- Witness for C6 with a constant unit model at the app's 12-month
horizon. -/
theorem clv_antitone_in_discount_rate_witness :
    (0:ℚ) ≤ 1 ∧
    customer_lifetime_value (fun _ => 1) 1 12 (10/100) ≤
      customer_lifetime_value (fun _ => 1) 1 12 (1/100) :=
  ⟨by norm_num,
   clv_antitone_in_discount_rate (fun _ => 1) 1 12 (by norm_num) (fun p => by norm_num)⟩

/-- C7 as stated is false: on `zeroRepeatStore` the aggregated row has
`frequency = 1 > 0` and `monetary_value = 0 ≤ 0` — the inconsistency the
claim says is skipped — yet the scoring block scores it and keeps it in
the final report (here with an arbitrary concrete scorer returning 0):
nothing is skipped and no error list exists in the scoring block. -/
theorem scoring_keeps_inconsistent_customer :
    0 < (⟨1, 1, 1, 1, 0⟩ : RfmSummary).frequency ∧
    (⟨1, 1, 1, 1, 0⟩ : RfmSummary).monetary_value ≤ 0 ∧
    (⟨⟨1, 1, 1, 1, 0⟩, 0⟩ : ScoredCustomer) ∈
      assign_predicted_clv (fun _ => 0) (prepare_lifetimes_data zeroRepeatStore) ∧
    (assign_predicted_clv (fun _ => 0) (prepare_lifetimes_data zeroRepeatStore)).length =
      (prepare_lifetimes_data zeroRepeatStore).length := by
  rw [prepare_zeroRepeatStore_eq]
  exact ⟨Nat.zero_lt_one, le_refl 0, List.mem_cons_self _ _, rfl⟩

/-- C7, amended: a per-customer inconsistency (monetary value ≤ 0 with
positive frequency) indeed does not abort the batch, but the customer is
not skipped either: every row of the RFM table, inconsistent or not, is
scored and appears in the final report, and the scoring block produces no
error or skip list. -/
theorem scoring_skips_nobody (score : RfmSummary → ℚ) (rfm_df : List RfmSummary)
    (s : RfmSummary) (hs : s ∈ rfm_df) :
    (⟨s, score s⟩ : ScoredCustomer) ∈ assign_predicted_clv score rfm_df ∧
    (assign_predicted_clv score rfm_df).length = rfm_df.length :=
  ⟨List.mem_map.mpr ⟨s, hs, rfl⟩, List.length_map rfm_df _⟩

/-- Witness for the amended C7 at the inconsistent row of
`zeroRepeatStore`. -/
theorem scoring_skips_nobody_witness :
    (⟨1, 1, 1, 1, 0⟩ : RfmSummary) ∈ prepare_lifetimes_data zeroRepeatStore ∧
    ((⟨⟨1, 1, 1, 1, 0⟩, (0:ℚ)⟩ : ScoredCustomer) ∈
        assign_predicted_clv (fun _ => (0:ℚ)) (prepare_lifetimes_data zeroRepeatStore) ∧
      (assign_predicted_clv (fun _ => (0:ℚ)) (prepare_lifetimes_data zeroRepeatStore)).length =
        (prepare_lifetimes_data zeroRepeatStore).length) :=
  ⟨by rw [prepare_zeroRepeatStore_eq]; exact List.mem_cons_self _ _,
   scoring_skips_nobody (fun _ => 0) (prepare_lifetimes_data zeroRepeatStore) _
     (by rw [prepare_zeroRepeatStore_eq]; exact List.mem_cons_self _ _)⟩

/-- C8: the pipeline is a pure function of the transaction store — two
runs over the same unchanged store (with the same externally fitted
models) produce identical RFM tables and identical segment labels. -/
theorem pipeline_deterministic (fit : List RfmSummary → List RfmSummary → RfmSummary → ℚ)
    (df df2 : List TransactionRecord) (h : df = df2) :
    run_pipeline fit df = run_pipeline fit df2 := by
  rw [h]

/-- Witness for C8: two runs on the worked example agree. -/
theorem pipeline_deterministic_witness :
    run_pipeline (fun _ _ _ => 0) exampleStore = run_pipeline (fun _ _ _ => 0) exampleStore :=
  pipeline_deterministic (fun _ _ _ => 0) exampleStore exampleStore rfl

/-- C9: `summary_data_from_transaction_data` is bound by no import and no
definition of the module, so every call of `prepare_lifetimes_data`
resolves it unsuccessfully and raises `NameError` instead of returning a
summary table. -/
theorem prepare_lifetimes_data_raises_name_error (df : List TransactionRecord) :
    "summary_data_from_transaction_data" ∉ app_module_names ∧
    prepare_lifetimes_data_run df =
      .error (.nameError "summary_data_from_transaction_data") := by
  refine ⟨by decide, ?_⟩
  rw [prepare_lifetimes_data_run, if_neg (by decide)]

/-- C10: the CLV scorer is applied to every row of the RFM table — the
scored report projects back to exactly the input table (so customers with
frequency 0 or excluded from the monetary fit are scored too), and the
predicted-value column is exactly the scorer mapped over every row. -/
theorem scorer_applied_to_every_row (score : RfmSummary → ℚ) (rfm_df : List RfmSummary) :
    (assign_predicted_clv score rfm_df).map (fun e => e.summary) = rfm_df ∧
    (assign_predicted_clv score rfm_df).map (fun e => e.predicted_value) = rfm_df.map score := by
  constructor
  · rw [assign_predicted_clv, List.map_map]
    exact List.map_id' rfm_df
  · rw [assign_predicted_clv, List.map_map]
    rfl
